import Mathlib

/-!
Verification of the fire-alert demo's two core components against their
natural-language specification: the IoU tracker (`src/tracking/iou_tracker.py`)
and the event-confirmation engine (`src/events/fire_event_manager.py`).

Modelling conventions:
* Python floats are modelled by `ℚ` (all arithmetic in the source is
  exact add/sub/mul/div on small values; the literal `1e-6` becomes `1/1000000`).
* Python `dict`s (insertion-ordered) are modelled by association lists
  `List (ℕ × α)`: assignment overwrites in place or appends, deletion filters,
  iteration follows list order.
* `time.time()` is an external input, passed explicitly as `now : ℚ`.
* The unbounded `while True` greedy-matching loop is modelled with explicit
  fuel; exhausted fuel yields `none` (the Python loop not returning).
-/

/-- Axis-aligned bounding box `(x1, y1, x2, y2)`, as used throughout the source. -/
structure Box where
  x1 : ℚ
  y1 : ℚ
  x2 : ℚ
  y2 : ℚ
deriving DecidableEq, Repr

/-- A well-formed box has positive width and height (`x1 < x2`, `y1 < y2`),
matching the spec's Detection contract. -/
def Box.WellFormed (b : Box) : Prop := b.x1 < b.x2 ∧ b.y1 < b.y2

instance (b : Box) : Decidable b.WellFormed := by
  unfold Box.WellFormed; infer_instance

/-- Area of a box, `(x2 - x1) * (y2 - y1)` as computed in `compute_iou`. -/
def Box.area (b : Box) : ℚ := (b.x2 - b.x1) * (b.y2 - b.y1)

/-- The additive epsilon `1e-6` in the denominator of `compute_iou`. -/
def iouEps : ℚ := 1 / 1000000

/-- Embedding of `compute_iou` (iou_tracker.py lines 6-26): intersection over
union with the `1e-6` epsilon in the denominator, returning `0.0` when the
computed intersection area is non-positive. -/
def compute_iou (boxA boxB : Box) : ℚ :=
  let xA := max boxA.x1 boxB.x1
  let yA := max boxA.y1 boxB.y1
  let xB := min boxA.x2 boxB.x2
  let yB := min boxA.y2 boxB.y2
  let inter_w := max 0 (xB - xA)
  let inter_h := max 0 (yB - yA)
  let inter_area := inter_w * inter_h
  if inter_area ≤ 0 then 0
  else inter_area / (boxA.area + boxB.area - inter_area + iouEps)

lemma iouEps_pos : 0 < iouEps := by norm_num [iouEps]

/-- The intersection area computed by `compute_iou` is at most either box's
area, for well-formed boxes. -/
lemma inter_area_le_area (a b : Box) (ha : a.WellFormed) (hb : b.WellFormed) :
    max 0 (min a.x2 b.x2 - max a.x1 b.x1) * max 0 (min a.y2 b.y2 - max a.y1 b.y1)
      ≤ a.area ∧
    max 0 (min a.x2 b.x2 - max a.x1 b.x1) * max 0 (min a.y2 b.y2 - max a.y1 b.y1)
      ≤ b.area := by
  obtain ⟨hax, hay⟩ := ha
  obtain ⟨hbx, hby⟩ := hb
  have hwa : max 0 (min a.x2 b.x2 - max a.x1 b.x1) ≤ a.x2 - a.x1 := by
    apply max_le (by linarith)
    have h1 : min a.x2 b.x2 ≤ a.x2 := min_le_left _ _
    have h2 : a.x1 ≤ max a.x1 b.x1 := le_max_left _ _
    linarith
  have hwb : max 0 (min a.x2 b.x2 - max a.x1 b.x1) ≤ b.x2 - b.x1 := by
    apply max_le (by linarith)
    have h1 : min a.x2 b.x2 ≤ b.x2 := min_le_right _ _
    have h2 : b.x1 ≤ max a.x1 b.x1 := le_max_right _ _
    linarith
  have hha : max 0 (min a.y2 b.y2 - max a.y1 b.y1) ≤ a.y2 - a.y1 := by
    apply max_le (by linarith)
    have h1 : min a.y2 b.y2 ≤ a.y2 := min_le_left _ _
    have h2 : a.y1 ≤ max a.y1 b.y1 := le_max_left _ _
    linarith
  have hhb : max 0 (min a.y2 b.y2 - max a.y1 b.y1) ≤ b.y2 - b.y1 := by
    apply max_le (by linarith)
    have h1 : min a.y2 b.y2 ≤ b.y2 := min_le_right _ _
    have h2 : b.y1 ≤ max a.y1 b.y1 := le_max_right _ _
    linarith
  have hw0 : (0:ℚ) ≤ max 0 (min a.x2 b.x2 - max a.x1 b.x1) := le_max_left _ _
  have hh0 : (0:ℚ) ≤ max 0 (min a.y2 b.y2 - max a.y1 b.y1) := le_max_left _ _
  constructor
  · calc max 0 (min a.x2 b.x2 - max a.x1 b.x1) * max 0 (min a.y2 b.y2 - max a.y1 b.y1)
        ≤ (a.x2 - a.x1) * (a.y2 - a.y1) := by
          apply mul_le_mul hwa hha hh0 (by linarith)
      _ = a.area := rfl
  · calc max 0 (min a.x2 b.x2 - max a.x1 b.x1) * max 0 (min a.y2 b.y2 - max a.y1 b.y1)
        ≤ (b.x2 - b.x1) * (b.y2 - b.y1) := by
          apply mul_le_mul hwb hhb hh0 (by linarith)
      _ = b.area := rfl

/-- The value of `compute_iou` lands in `[0, 1]` for well-formed boxes. -/
lemma compute_iou_mem_unit (a b : Box) (ha : a.WellFormed) (hb : b.WellFormed) :
    0 ≤ compute_iou a b ∧ compute_iou a b ≤ 1 := by
  unfold compute_iou
  set w := max 0 (min a.x2 b.x2 - max a.x1 b.x1) with hw
  set h := max 0 (min a.y2 b.y2 - max a.y1 b.y1) with hh
  simp only
  by_cases hle : w * h ≤ 0
  · rw [if_pos hle]; norm_num
  · rw [if_neg hle]
    push_neg at hle
    obtain ⟨hIa, hIb⟩ := inter_area_le_area a b ha hb
    rw [← hw, ← hh] at hIa hIb
    have hden : 0 < a.area + b.area - w * h + iouEps := by
      have := iouEps_pos; linarith
    constructor
    · positivity
    · rw [div_le_one hden]
      have := iouEps_pos; linarith

/-- When the computed intersection width or height is non-positive,
`compute_iou` returns exactly `0`. -/
lemma compute_iou_of_disjoint (a b : Box)
    (hd : min a.x2 b.x2 - max a.x1 b.x1 ≤ 0 ∨ min a.y2 b.y2 - max a.y1 b.y1 ≤ 0) :
    compute_iou a b = 0 := by
  unfold compute_iou
  simp only
  rw [if_pos]
  rcases hd with hx | hy
  · have : max 0 (min a.x2 b.x2 - max a.x1 b.x1) = 0 := max_eq_left hx
    rw [this, zero_mul]
  · have : max 0 (min a.y2 b.y2 - max a.y1 b.y1) = 0 := max_eq_left hy
    rw [this, mul_zero]

/-- Self-overlap: `compute_iou a a = area / (area + ε)`, strictly below `1`
with deficit exactly `ε / (area + ε)`, and the denominator is positive. -/
lemma compute_iou_self (a : Box) (ha : a.WellFormed) :
    compute_iou a a = a.area / (a.area + iouEps) ∧
    0 < a.area + iouEps ∧
    compute_iou a a < 1 ∧
    1 - compute_iou a a = iouEps / (a.area + iouEps) := by
  obtain ⟨hax, hay⟩ := ha
  have harea : 0 < a.area := by
    unfold Box.area; nlinarith
  have hden : 0 < a.area + iouEps := by have := iouEps_pos; linarith
  have hval : compute_iou a a = a.area / (a.area + iouEps) := by
    unfold compute_iou
    simp only [max_self, min_self]
    have hw : max 0 (a.x2 - a.x1) = a.x2 - a.x1 := max_eq_right (by linarith)
    have hh : max 0 (a.y2 - a.y1) = a.y2 - a.y1 := max_eq_right (by linarith)
    rw [hw, hh]
    have hprod : (a.x2 - a.x1) * (a.y2 - a.y1) = a.area := rfl
    rw [hprod]
    rw [if_neg (by linarith)]
    ring_nf
  refine ⟨hval, hden, ?_, ?_⟩
  · rw [hval, div_lt_one hden]
    have := iouEps_pos; linarith
  · rw [hval]
    field_simp

/-! ## IoU tracker (src/tracking/iou_tracker.py) -/

/-- A raw detection `{bbox, score, class_name}` from the external detector. -/
structure Det where
  bbox : Box
  score : ℚ
  class_name : String
deriving DecidableEq, Repr

/-- A live track (`Track` in iou_tracker.py): mirrors the most recently
matched detection plus the consecutive-miss counter `lost`. The track id is
kept as the key in the Track Table association list. -/
structure Track where
  bbox : Box
  score : ℚ
  class_name : String
  lost : ℕ
deriving DecidableEq, Repr

/-- One entry of the list returned by `IoUTracker.update`. -/
structure TrackState where
  id : ℕ
  bbox : Box
  score : ℚ
  class_name : String
  lost : ℕ
deriving DecidableEq, Repr

/-- The `IoUTracker` state: configuration, the Track Table (an
insertion-ordered `dict`, modelled as an association list), and the
fresh-id counter. -/
structure IoUTracker where
  iou_threshold : ℚ
  max_lost : ℕ
  tracks : List (ℕ × Track)
  next_id : ℕ
deriving DecidableEq, Repr

/-- Embedding of `IoUTracker.__init__`: empty Track Table, ids start at 1. -/
def IoUTracker.init (thr : ℚ) (ml : ℕ) : IoUTracker :=
  { iou_threshold := thr, max_lost := ml, tracks := [], next_id := 1 }

/-- Embedding of `IoUTracker._create_track`: allocate the next id, append the new track. -/
def IoUTracker.createTrack (t : IoUTracker) (d : Det) : IoUTracker :=
  { t with
    tracks := t.tracks ++ [(t.next_id, ⟨d.bbox, d.score, d.class_name, 0⟩)]
    next_id := t.next_id + 1 }

/-- The IoU matrix between track boxes and detection boxes (rows = tracks). -/
def iouMatrix (tbs dbs : List Box) : List (List ℚ) :=
  tbs.map (fun tb => dbs.map (fun db => compute_iou tb db))

/-- Entries of row `i` of a matrix, with column indices starting at `j`. -/
def rowEntriesAux (i : ℕ) : ℕ → List ℚ → List ((ℕ × ℕ) × ℚ)
  | _, [] => []
  | j, x :: xs => ((i, j), x) :: rowEntriesAux i (j + 1) xs

/-- Entries of a matrix in row-major order, with row indices starting at `i`. -/
def matEntriesAux : ℕ → List (List ℚ) → List ((ℕ × ℕ) × ℚ)
  | _, [] => []
  | i, r :: rs => rowEntriesAux i 0 r ++ matEntriesAux (i + 1) rs

/-- Row-major flattening of a matrix with explicit indices, matching
`np.argmax` over the flattened array plus `np.unravel_index`. -/
def matEntries (m : List (List ℚ)) : List ((ℕ × ℕ) × ℚ) :=
  matEntriesAux 0 m

/-- One step of the running-maximum fold: a later entry replaces the current
best only when strictly greater, as `np.argmax` returns the first occurrence
of the maximum. -/
def argmaxStep (best : Option ((ℕ × ℕ) × ℚ)) (e : (ℕ × ℕ) × ℚ) :
    Option ((ℕ × ℕ) × ℚ) :=
  match best with
  | none => some e
  | some b => if b.2 < e.2 then some e else some b

/-- First maximum of an indexed entry list (`np.argmax` semantics). -/
def firstArgmax (l : List ((ℕ × ℕ) × ℚ)) : Option ((ℕ × ℕ) × ℚ) :=
  l.foldl argmaxStep none

/-- Overwrite entry `(i, j)` of the matrix (the `-1` sentinel assignment). -/
def setEntry (m : List (List ℚ)) (i j : ℕ) (v : ℚ) : List (List ℚ) :=
  m.set i ((m.getD i []).set j v)

/-- The greedy assignment loop (iou_tracker.py lines 101-126), with explicit
fuel replacing `while True`. Returns the matched index pairs and the consumed
track / detection indices, or `none` when the fuel runs out (i.e. the Python
loop has not yet reached its `break`). -/
def greedyLoop (thr : ℚ) : ℕ → List (List ℚ) → List ℕ → List ℕ →
    List (ℕ × ℕ) → Option (List (ℕ × ℕ) × List ℕ × List ℕ)
  | 0, _, _, _, _ => none
  | fuel + 1, m, usedT, usedD, ms =>
    match firstArgmax (matEntries m) with
    | none => some (ms, usedT, usedD)
    | some e =>
      if e.2 < thr then some (ms, usedT, usedD)
      else if e.1.1 ∈ usedT ∨ e.1.2 ∈ usedD then
        greedyLoop thr fuel (setEntry m e.1.1 e.1.2 (-1)) usedT usedD ms
      else
        greedyLoop thr fuel (setEntry m e.1.1 e.1.2 (-1))
          (usedT ++ [e.1.1]) (usedD ++ [e.1.2]) (ms ++ [(e.1.1, e.1.2)])

/-- Default detection for out-of-range list access (never reached on the
in-bounds indices the greedy loop produces). -/
def defaultDet : Det := ⟨⟨0, 0, 0, 0⟩, 0, ""⟩

/-- One iteration of lines 113-126: the track whose id sits at snapshot index
`p.1` takes the detection at index `p.2` (`bbox/score/class_name` overwritten,
`lost` reset to 0). -/
def applyMatchStep (track_ids : List ℕ) (dets : List Det) (acc : IoUTracker)
    (p : ℕ × ℕ) : IoUTracker :=
  let tid := track_ids.getD p.1 0
  let d := dets.getD p.2 defaultDet
  { acc with tracks := acc.tracks.map (fun q =>
      if q.1 = tid then (q.1, ⟨d.bbox, d.score, d.class_name, 0⟩) else q) }

/-- Lines 113-126 applied over all matched pairs. -/
def applyMatches (track_ids : List ℕ) (dets : List Det) (ms : List (ℕ × ℕ))
    (t : IoUTracker) : IoUTracker :=
  ms.foldl (applyMatchStep track_ids dets) t

/-- One iteration of lines 128-131: an unconsumed detection spawns a track. -/
def spawnStep (usedD : List ℕ) (acc : IoUTracker) (p : ℕ × Det) : IoUTracker :=
  if p.1 ∈ usedD then acc else acc.createTrack p.2

/-- Lines 128-131: every detection whose index was not consumed spawns a new
track. -/
def spawnNew (usedD : List ℕ) (dets : List Det) (t : IoUTracker) : IoUTracker :=
  dets.enum.foldl (spawnStep usedD) t

/-- One iteration of lines 133-138: an unconsumed snapshot track has its
`lost` counter incremented. -/
def bumpStep (usedT : List ℕ) (acc : IoUTracker) (p : ℕ × ℕ) : IoUTracker :=
  if p.1 ∈ usedT then acc
  else { acc with tracks := acc.tracks.map (fun q =>
      if q.1 = p.2 then (q.1, { q.2 with lost := q.2.lost + 1 }) else q) }

/-- Lines 133-138: every snapshot track whose index was not consumed has its
`lost` counter incremented. -/
def bumpLost (usedT : List ℕ) (track_ids : List ℕ) (t : IoUTracker) : IoUTracker :=
  track_ids.enum.foldl (bumpStep usedT) t

/-- The matching phase of `IoUTracker.update` (lines 80-142): empty-table
branch, empty-detections branch, or greedy matching followed by new-track
creation and `lost` increments. `none` means the greedy loop's fuel ran out. -/
def IoUTracker.updateCore (t : IoUTracker) (dets : List Det) : Option IoUTracker :=
  if t.tracks.isEmpty then
    some (dets.foldl IoUTracker.createTrack t)
  else if dets.isEmpty then
    some { t with tracks := t.tracks.map (fun p => (p.1, { p.2 with lost := p.2.lost + 1 })) }
  else
    let track_ids := t.tracks.map (fun p => p.1)
    let m := iouMatrix (t.tracks.map (fun p => p.2.bbox)) (dets.map (fun d => d.bbox))
    match greedyLoop t.iou_threshold (t.tracks.length * dets.length + 1) m [] [] [] with
    | none => none
    | some (ms, usedT, usedD) =>
      some (bumpLost usedT track_ids (spawnNew usedD dets (applyMatches track_ids dets ms t)))

/-- Deletion step (lines 144-147): drop every track with `lost > max_lost`. -/
def IoUTracker.prune (t : IoUTracker) : IoUTracker :=
  { t with tracks := t.tracks.filter (fun q => q.2.lost ≤ t.max_lost) }

/-- Output normalisation (lines 149-161). -/
def IoUTracker.output (t : IoUTracker) : List TrackState :=
  t.tracks.map (fun q => ⟨q.1, q.2.bbox, q.2.score, q.2.class_name, q.2.lost⟩)

/-- Full `IoUTracker.update` (lines 73-161): matching phase, deletion of
over-lost tracks, then the normalised output list. -/
def IoUTracker.update (t : IoUTracker) (dets : List Det) :
    Option (IoUTracker × List TrackState) :=
  (t.updateCore dets).map (fun t' => (t'.prune, t'.prune.output))

/-! ### Properties of the argmax scan -/

lemma argmaxStep_some (b e : (ℕ × ℕ) × ℚ) :
    argmaxStep (some b) e = if b.2 < e.2 then some e else some b := rfl

/-- A running-maximum fold started from `some b` yields an element of
`b :: l` that dominates `b` and every element of `l`. -/
lemma foldl_argmaxStep_some :
    ∀ (l : List ((ℕ × ℕ) × ℚ)) (b : (ℕ × ℕ) × ℚ),
    ∃ c, l.foldl argmaxStep (some b) = some c ∧ (c = b ∨ c ∈ l) ∧
      b.2 ≤ c.2 ∧ ∀ x ∈ l, x.2 ≤ c.2 := by
  intro l
  induction l with
  | nil => exact fun b => ⟨b, rfl, Or.inl rfl, le_rfl, by simp⟩
  | cons x xs ih =>
    intro b
    rw [List.foldl_cons, argmaxStep_some]
    by_cases hx : b.2 < x.2
    · rw [if_pos hx]
      obtain ⟨c, hc, hmem, hle, hall⟩ := ih x
      refine ⟨c, hc, ?_, le_of_lt (lt_of_lt_of_le hx hle), ?_⟩
      · rcases hmem with h | h
        · exact Or.inr (h ▸ List.mem_cons_self x xs)
        · exact Or.inr (List.mem_cons_of_mem x h)
      · intro y hy
        rcases List.mem_cons.mp hy with h | h
        · exact h ▸ hle
        · exact hall y h
    · rw [if_neg hx]
      obtain ⟨c, hc, hmem, hle, hall⟩ := ih b
      refine ⟨c, hc, ?_, hle, ?_⟩
      · rcases hmem with h | h
        · exact Or.inl h
        · exact Or.inr (List.mem_cons_of_mem x h)
      · intro y hy
        rcases List.mem_cons.mp hy with h | h
        · subst h
          push_neg at hx
          exact le_trans hx hle
        · exact hall y h

/-- On a nonempty list, `firstArgmax` returns an element that dominates the
whole list. -/
lemma firstArgmax_spec (x : (ℕ × ℕ) × ℚ) (xs : List ((ℕ × ℕ) × ℚ)) :
    ∃ c, firstArgmax (x :: xs) = some c ∧ c ∈ x :: xs ∧
      ∀ y ∈ x :: xs, y.2 ≤ c.2 := by
  obtain ⟨c, hc, hmem, hle, hall⟩ := foldl_argmaxStep_some xs x
  refine ⟨c, ?_, ?_, ?_⟩
  · show (x :: xs).foldl argmaxStep none = some c
    rw [List.foldl_cons]
    exact hc
  · rcases hmem with h | h
    · exact h ▸ List.mem_cons_self x xs
    · exact List.mem_cons_of_mem x h
  · intro y hy
    rcases List.mem_cons.mp hy with h | h
    · exact h ▸ hle
    · exact hall y h

/-- Whatever `firstArgmax` returns is an element of its input list. -/
lemma firstArgmax_mem {l : List ((ℕ × ℕ) × ℚ)} {e : (ℕ × ℕ) × ℚ}
    (h : firstArgmax l = some e) : e ∈ l := by
  cases l with
  | nil => simp [firstArgmax] at h
  | cons x xs =>
    obtain ⟨c, hc, hmem, _⟩ := firstArgmax_spec x xs
    rw [h] at hc
    injection hc with hce
    exact hce ▸ hmem

/-! ### Matrix entries: indices are in bounds and values match -/

lemma rowEntriesAux_mem :
    ∀ (row : List ℚ) (i j : ℕ) (e : (ℕ × ℕ) × ℚ),
    e ∈ rowEntriesAux i j row →
    ∃ k, k < row.length ∧ e.1.1 = i ∧ e.1.2 = j + k ∧ row.getD k 0 = e.2 := by
  intro row
  induction row with
  | nil => intro i j e h; simp [rowEntriesAux] at h
  | cons x xs ih =>
    intro i j e h
    rw [rowEntriesAux] at h
    rcases List.mem_cons.mp h with h | h
    · subst h
      exact ⟨0, Nat.succ_pos _, rfl, rfl, rfl⟩
    · obtain ⟨k, hk, h1, h2, h3⟩ := ih i (j + 1) e h
      refine ⟨k + 1, Nat.succ_lt_succ hk, h1, by omega, by simpa using h3⟩

lemma matEntriesAux_mem :
    ∀ (m : List (List ℚ)) (i : ℕ) (e : (ℕ × ℕ) × ℚ),
    e ∈ matEntriesAux i m →
    ∃ r, r < m.length ∧ e.1.1 = i + r ∧ e.1.2 < (m.getD r []).length ∧
      (m.getD r []).getD e.1.2 0 = e.2 := by
  intro m
  induction m with
  | nil => intro i e h; simp [matEntriesAux] at h
  | cons row rs ih =>
    intro i e h
    rw [matEntriesAux] at h
    rcases List.mem_append.mp h with h | h
    · obtain ⟨k, hk, h1, h2, h3⟩ := rowEntriesAux_mem row i 0 e h
      have h2' : e.1.2 = k := by omega
      refine ⟨0, Nat.succ_pos _, by omega, ?_, ?_⟩
      · simpa [h2'] using hk
      · simpa [h2'] using h3
    · obtain ⟨r, hr, h1, h2, h3⟩ := ih (i + 1) e h
      refine ⟨r + 1, Nat.succ_lt_succ hr, by omega, by simpa using h2,
        by simpa using h3⟩

/-- An entry of `matEntries m` has in-bounds indices and carries the value
stored at those indices. -/
lemma matEntries_mem {m : List (List ℚ)} {e : (ℕ × ℕ) × ℚ}
    (h : e ∈ matEntries m) :
    e.1.1 < m.length ∧ e.1.2 < (m.getD e.1.1 []).length ∧
      (m.getD e.1.1 []).getD e.1.2 0 = e.2 := by
  obtain ⟨r, hr, h1, h2, h3⟩ := matEntriesAux_mem m 0 e h
  have : e.1.1 = r := by omega
  subst this
  exact ⟨hr, h2, h3⟩

/-! ### A decreasing measure for the greedy loop -/

/-- Number of matrix entries strictly above the `-1` sentinel. -/
def liveCount (m : List (List ℚ)) : ℕ :=
  (m.map (fun row => (row.filter (fun x => -1 < x)).length)).sum

lemma filter_set_sentinel :
    ∀ (row : List ℚ) (j : ℕ), j < row.length → -1 < row.getD j 0 →
    ((row.set j (-1)).filter (fun x => -1 < x)).length <
      (row.filter (fun x => -1 < x)).length := by
  intro row
  induction row with
  | nil => intro j hj; simp at hj
  | cons x xs ih =>
    intro j hj hv
    cases j with
    | zero =>
      have hx : (-1 : ℚ) < x := by simpa using hv
      have h1 : ¬ (-1 : ℚ) < -1 := lt_irrefl _
      simp only [List.set, List.filter_cons]
      simp [hx, h1]
    | succ j' =>
      have hj' : j' < xs.length := by simpa using hj
      have hv' : -1 < xs.getD j' 0 := by simpa using hv
      have := ih j' hj' hv'
      simp only [List.set, List.filter_cons]
      by_cases hx : (-1 : ℚ) < x
      · simp only [hx, decide_True, if_true, List.length_cons]
        omega
      · simp only [hx, decide_False, if_false]
        exact this

lemma liveCount_set_sentinel :
    ∀ (m : List (List ℚ)) (i j : ℕ), i < m.length →
    j < (m.getD i []).length → -1 < (m.getD i []).getD j 0 →
    liveCount (setEntry m i j (-1)) < liveCount m := by
  intro m
  induction m with
  | nil => intro i j hi; simp at hi
  | cons row rs ih =>
    intro i j hi hj hv
    cases i with
    | zero =>
      have hj0 : j < row.length := by simpa using hj
      have hv0 : -1 < row.getD j 0 := by simpa using hv
      have := filter_set_sentinel row j hj0 hv0
      simp only [setEntry, liveCount, List.getD_cons_zero, List.set,
        List.map_cons, List.sum_cons]
      omega
    | succ i' =>
      have hi' : i' < rs.length := by simpa using hi
      have hj' : j < (rs.getD i' []).length := by simpa using hj
      have hv' : -1 < (rs.getD i' []).getD j 0 := by simpa using hv
      have := ih i' j hi' hj' hv'
      simp only [setEntry, liveCount, List.getD_cons_succ, List.set,
        List.map_cons, List.sum_cons] at this ⊢
      omega

/-- With fuel exceeding the number of live entries, the greedy loop reaches
its `break` (returns `some`), provided the threshold is above the sentinel. -/
lemma greedyLoop_isSome (thr : ℚ) (hthr : -1 < thr) :
    ∀ (fuel : ℕ) (m : List (List ℚ)) (usedT usedD : List ℕ)
      (ms : List (ℕ × ℕ)), liveCount m < fuel →
    (greedyLoop thr fuel m usedT usedD ms).isSome := by
  intro fuel
  induction fuel with
  | zero => intro m _ _ _ h; exact absurd h (Nat.not_lt_zero _)
  | succ fuel ih =>
    intro m usedT usedD ms hm
    cases hfa : firstArgmax (matEntries m) with
    | none => simp [greedyLoop, hfa]
    | some e =>
      by_cases hlt : e.2 < thr
      · simp [greedyLoop, hfa, hlt]
      · have hmem := firstArgmax_mem hfa
        obtain ⟨h1, h2, h3⟩ := matEntries_mem hmem
        have hv : -1 < (m.getD e.1.1 []).getD e.1.2 0 := by
          rw [h3]; push_neg at hlt; linarith
        have hdec := liveCount_set_sentinel m e.1.1 e.1.2 h1 h2 hv
        by_cases hused : e.1.1 ∈ usedT ∨ e.1.2 ∈ usedD
        · simp only [greedyLoop, hfa, if_neg hlt, if_pos hused]
          exact ih _ _ _ _ (by omega)
        · simp only [greedyLoop, hfa, if_neg hlt, if_neg hused]
          exact ih _ _ _ _ (by omega)

lemma liveCount_le_total (m : List (List ℚ)) :
    liveCount m ≤ (m.map List.length).sum := by
  induction m with
  | nil => simp [liveCount]
  | cons row rs ih =>
    simp only [liveCount, List.map_cons, List.sum_cons] at ih ⊢
    have := List.length_filter_le (fun x => decide (-1 < x)) row
    omega

lemma iouMatrix_total (tbs dbs : List Box) :
    ((iouMatrix tbs dbs).map List.length).sum = tbs.length * dbs.length := by
  induction tbs with
  | nil => simp [iouMatrix]
  | cons tb tbs ih =>
    simp only [iouMatrix, List.map_cons, List.sum_cons, List.length_map,
      List.length_cons] at ih ⊢
    rw [ih]
    ring

/-! ### Preservation of configuration fields through the matching phase -/

lemma foldl_preserve {α β : Type _} (f : β → α → β) (P : β → Prop)
    (hf : ∀ b a, P b → P (f b a)) :
    ∀ (l : List α) (b : β), P b → P (l.foldl f b) := by
  intro l
  induction l with
  | nil => exact fun b hb => hb
  | cons a l ih => exact fun b hb => ih _ (hf b a hb)

lemma applyMatches_fields (track_ids : List ℕ) (dets : List Det)
    (ms : List (ℕ × ℕ)) (t : IoUTracker) :
    (applyMatches track_ids dets ms t).max_lost = t.max_lost ∧
    (applyMatches track_ids dets ms t).iou_threshold = t.iou_threshold ∧
    (applyMatches track_ids dets ms t).next_id = t.next_id := by
  unfold applyMatches
  exact foldl_preserve (applyMatchStep track_ids dets)
    (fun s => s.max_lost = t.max_lost ∧ s.iou_threshold = t.iou_threshold ∧
      s.next_id = t.next_id)
    (fun b a hb => hb) ms t ⟨rfl, rfl, rfl⟩

lemma spawnNew_fields (usedD : List ℕ) (dets : List Det) (t : IoUTracker) :
    (spawnNew usedD dets t).max_lost = t.max_lost ∧
    (spawnNew usedD dets t).iou_threshold = t.iou_threshold ∧
    t.next_id ≤ (spawnNew usedD dets t).next_id := by
  unfold spawnNew
  refine foldl_preserve (spawnStep usedD)
    (fun s => s.max_lost = t.max_lost ∧ s.iou_threshold = t.iou_threshold ∧
      t.next_id ≤ s.next_id) ?_ dets.enum t ⟨rfl, rfl, le_rfl⟩
  intro b a hb
  unfold spawnStep
  by_cases hp : a.1 ∈ usedD
  · simpa [hp] using hb
  · simp only [hp, if_false]
    exact ⟨hb.1, hb.2.1, le_trans hb.2.2 (Nat.le_succ _)⟩

lemma bumpLost_fields (usedT : List ℕ) (track_ids : List ℕ) (t : IoUTracker) :
    (bumpLost usedT track_ids t).max_lost = t.max_lost ∧
    (bumpLost usedT track_ids t).iou_threshold = t.iou_threshold ∧
    (bumpLost usedT track_ids t).next_id = t.next_id := by
  unfold bumpLost
  refine foldl_preserve (bumpStep usedT)
    (fun s => s.max_lost = t.max_lost ∧ s.iou_threshold = t.iou_threshold ∧
      s.next_id = t.next_id) ?_ track_ids.enum t ⟨rfl, rfl, rfl⟩
  intro b a hb
  unfold bumpStep
  by_cases hp : a.1 ∈ usedT
  · simpa [hp] using hb
  · simpa [hp] using hb

lemma updateCore_fields {t : IoUTracker} {dets : List Det} {ta : IoUTracker}
    (h : t.updateCore dets = some ta) :
    ta.max_lost = t.max_lost ∧ ta.iou_threshold = t.iou_threshold ∧
      t.next_id ≤ ta.next_id := by
  unfold IoUTracker.updateCore at h
  by_cases h1 : t.tracks.isEmpty
  · rw [if_pos h1] at h
    injection h with h
    subst h
    exact foldl_preserve IoUTracker.createTrack
      (fun s => s.max_lost = t.max_lost ∧ s.iou_threshold = t.iou_threshold ∧
        t.next_id ≤ s.next_id)
      (fun b a hb => ⟨hb.1, hb.2.1, le_trans hb.2.2 (Nat.le_succ _)⟩)
      dets t ⟨rfl, rfl, le_rfl⟩
  · rw [if_neg h1] at h
    by_cases h2 : dets.isEmpty
    · rw [if_pos h2] at h
      injection h with h
      subst h
      exact ⟨rfl, rfl, le_rfl⟩
    · rw [if_neg h2] at h
      dsimp only at h
      cases hg : greedyLoop t.iou_threshold (t.tracks.length * dets.length + 1)
          (iouMatrix (t.tracks.map (fun p => p.2.bbox))
            (dets.map (fun d => d.bbox))) [] [] [] with
      | none => rw [hg] at h; exact absurd h (by simp)
      | some res =>
        obtain ⟨ms, usedT, usedD⟩ := res
        rw [hg] at h
        dsimp only at h
        injection h with h
        subst h
        obtain ⟨a1, a2, a3⟩ := applyMatches_fields (t.tracks.map (fun p => p.1)) dets ms t
        obtain ⟨s1, s2, s3⟩ := spawnNew_fields usedD dets
          (applyMatches (t.tracks.map (fun p => p.1)) dets ms t)
        obtain ⟨b1, b2, b3⟩ := bumpLost_fields usedT (t.tracks.map (fun p => p.1))
          (spawnNew usedD dets (applyMatches (t.tracks.map (fun p => p.1)) dets ms t))
        refine ⟨by rw [b1, s1, a1], by rw [b2, s2, a2], ?_⟩
        rw [b3]
        exact le_trans (a3 ▸ s3) le_rfl

/-- Inversion of `IoUTracker.update`: a successful update is the matching
phase followed by `prune` and `output`. -/
lemma update_eq_some {t : IoUTracker} {dets : List Det} {t' : IoUTracker}
    {out : List TrackState} (h : t.update dets = some (t', out)) :
    ∃ ta, t.updateCore dets = some ta ∧ t' = ta.prune ∧ out = ta.prune.output := by
  unfold IoUTracker.update at h
  cases hc : t.updateCore dets with
  | none => rw [hc] at h; exact absurd h (by simp)
  | some ta =>
    rw [hc] at h
    simp only [Option.map_some'] at h
    injection h with h
    exact ⟨ta, rfl, (congrArg Prod.fst h).symm, (congrArg Prod.snd h).symm⟩

/-- C2: when `IoUTracker.update` returns, no track with `lost > max_lost`
remains in the Track Table or in the returned track list — every track whose
`lost` counter exceeds `max_lost` is deleted before the call completes, so in
particular a track missing its detections for `max_lost + 1` consecutive
updates is absent from the output of the call where `lost` first exceeds
`max_lost`. -/
theorem update_no_overlost (t : IoUTracker) (dets : List Det)
    (t' : IoUTracker) (out : List TrackState)
    (h : t.update dets = some (t', out)) :
    (∀ p ∈ t'.tracks, p.2.lost ≤ t.max_lost) ∧
    (∀ s ∈ out, s.lost ≤ t.max_lost) := by
  obtain ⟨ta, hc, ht', hout⟩ := update_eq_some h
  obtain ⟨hml, -, -⟩ := updateCore_fields hc
  subst ht' hout
  constructor
  · intro p hp
    have hf := List.of_mem_filter hp
    rw [← hml]
    simpa using hf
  · intro s hs
    unfold IoUTracker.output at hs
    obtain ⟨q, hq, rfl⟩ := List.mem_map.mp hs
    have hf := List.of_mem_filter hq
    rw [← hml]
    simpa using hf

/-- Witness for C2: a tracker with `max_lost = 1` holding a track with
`lost = 1` that misses again: the update deletes it. -/
theorem update_no_overlost_witness :
    (∀ p ∈ (⟨1, 1, [], 2⟩ : IoUTracker).tracks, p.2.lost ≤ 1) ∧
    (∀ s ∈ ([] : List TrackState), s.lost ≤ 1) :=
  update_no_overlost ⟨1, 1, [(1, ⟨⟨0, 0, 1, 1⟩, 1, "fire", 1⟩)], 2⟩ []
    ⟨1, 1, [], 2⟩ [] (by decide)

/-- C9: for a non-empty Track Table (`T` tracks) and a non-empty detection
list (`D` detections), the greedy assignment loop reaches its `break` within
fuel `T·D + 1` — each non-final iteration invalidates exactly one matrix
entry to the `-1` sentinel, so at most `T·D` invalidating iterations happen
before the final below-threshold stop — and `IoUTracker.update` returns. The
hypothesis `-1 < iou_threshold` holds for any meaningful acceptance floor;
at or below the sentinel the source loop would never break. -/
theorem greedy_assignment_bounded (t : IoUTracker) (dets : List Det)
    (hthr : -1 < t.iou_threshold) (ht : t.tracks ≠ []) (hd : dets ≠ []) :
    (greedyLoop t.iou_threshold (t.tracks.length * dets.length + 1)
      (iouMatrix (t.tracks.map (fun p => p.2.bbox))
        (dets.map (fun d => d.bbox))) [] [] []).isSome ∧
    (t.update dets).isSome := by
  have hfuel : liveCount (iouMatrix (t.tracks.map (fun p => p.2.bbox))
      (dets.map (fun d => d.bbox))) < t.tracks.length * dets.length + 1 := by
    have h1 := liveCount_le_total (iouMatrix (t.tracks.map (fun p => p.2.bbox))
      (dets.map (fun d => d.bbox)))
    rw [iouMatrix_total] at h1
    simp only [List.length_map] at h1
    omega
  have hg := greedyLoop_isSome t.iou_threshold hthr
    (t.tracks.length * dets.length + 1) _ [] [] [] hfuel
  refine ⟨hg, ?_⟩
  unfold IoUTracker.update IoUTracker.updateCore
  rw [if_neg (by simpa [List.isEmpty_iff] using ht),
    if_neg (by simpa [List.isEmpty_iff] using hd)]
  obtain ⟨res, hres⟩ := Option.isSome_iff_exists.mp hg
  obtain ⟨ms, usedT, usedD⟩ := res
  dsimp only
  rw [hres]
  simp

/-- Witness for C9 at a concrete one-track, one-detection instance. -/
theorem greedy_assignment_bounded_witness :
    (IoUTracker.update ⟨1, 10, [(1, ⟨⟨0, 0, 1, 1⟩, 1, "fire", 0⟩)], 2⟩
      [⟨⟨0, 0, 2, 2⟩, 1, "fire"⟩]).isSome :=
  (greedy_assignment_bounded ⟨1, 10, [(1, ⟨⟨0, 0, 1, 1⟩, 1, "fire", 0⟩)], 2⟩
    [⟨⟨0, 0, 2, 2⟩, 1, "fire"⟩] (by norm_num) (by simp) (by simp)).2

/-! ### Track-id freshness (C4) -/

/-- The ids currently present in a tracker's Track Table. -/
def idsOf (s : IoUTracker) : List ℕ := s.tracks.map (fun p => p.1)

/-- Invariant relating a state `s` reached during an update to the pre-update
state `t`: every live id is below the fresh-id counter, ids are pairwise
distinct, the counter never decreases, and every live id either predates the
update or was drawn from the fresh range `[t.next_id, s.next_id)`. -/
def IdFresh (t s : IoUTracker) : Prop :=
  (∀ k ∈ idsOf s, k < s.next_id) ∧ (idsOf s).Nodup ∧ t.next_id ≤ s.next_id ∧
    ∀ k ∈ idsOf s, k ∈ idsOf t ∨ t.next_id ≤ k

lemma IdFresh.base {t : IoUTracker}
    (hbound : ∀ k ∈ idsOf t, k < t.next_id) (hnodup : (idsOf t).Nodup) :
    IdFresh t t :=
  ⟨hbound, hnodup, le_rfl, fun _ hk => Or.inl hk⟩

lemma createTrack_fresh {t s : IoUTracker} (d : Det) (h : IdFresh t s) :
    IdFresh t (s.createTrack d) := by
  obtain ⟨h1, h2, h3, h4⟩ := h
  have hkeys : idsOf (s.createTrack d) = idsOf s ++ [s.next_id] := by
    simp [idsOf, IoUTracker.createTrack]
  refine ⟨?_, ?_, le_trans h3 (Nat.le_succ _), ?_⟩
  · intro k hk
    rw [hkeys, List.mem_append] at hk
    show k < s.next_id + 1
    rcases hk with hk | hk
    · exact lt_trans (h1 k hk) (Nat.lt_succ_self _)
    · simp at hk
      omega
  · rw [hkeys, List.nodup_append]
    refine ⟨h2, List.nodup_singleton _, ?_⟩
    intro k hk hk'
    simp at hk'
    have := h1 k hk
    omega
  · intro k hk
    rw [hkeys, List.mem_append] at hk
    rcases hk with hk | hk
    · exact h4 k hk
    · simp at hk
      subst hk
      exact Or.inr h3

lemma foldl_createTrack_fresh {t s : IoUTracker} (dets : List Det)
    (h : IdFresh t s) : IdFresh t (dets.foldl IoUTracker.createTrack s) :=
  foldl_preserve IoUTracker.createTrack (IdFresh t)
    (fun _ a hb => createTrack_fresh a hb) dets s h

lemma spawnNew_fresh {t s : IoUTracker} (usedD : List ℕ) (dets : List Det)
    (h : IdFresh t s) : IdFresh t (spawnNew usedD dets s) := by
  unfold spawnNew
  refine foldl_preserve (spawnStep usedD) (IdFresh t) ?_ dets.enum s h
  intro b a hb
  unfold spawnStep
  by_cases hp : a.1 ∈ usedD
  · simpa [hp] using hb
  · simp only [hp, if_false]
    exact createTrack_fresh a.2 hb

lemma keys_applyMatches (tids : List ℕ) (dets : List Det) (ms : List (ℕ × ℕ))
    (t : IoUTracker) : idsOf (applyMatches tids dets ms t) = idsOf t := by
  unfold applyMatches
  refine foldl_preserve (applyMatchStep tids dets)
    (fun s => idsOf s = idsOf t) ?_ ms t rfl
  intro b a hb
  unfold applyMatchStep idsOf at hb ⊢
  dsimp only
  rw [List.map_map, ← hb]
  apply List.map_congr_left
  intro q hq
  dsimp only [Function.comp]
  split <;> rfl

lemma keys_bumpLost (usedT tids : List ℕ) (t : IoUTracker) :
    idsOf (bumpLost usedT tids t) = idsOf t := by
  unfold bumpLost
  refine foldl_preserve (bumpStep usedT) (fun s => idsOf s = idsOf t) ?_
    tids.enum t rfl
  intro b a hb
  unfold bumpStep
  by_cases hp : a.1 ∈ usedT
  · simpa [hp] using hb
  · simp only [hp, if_false]
    unfold idsOf at hb ⊢
    dsimp only
    rw [List.map_map, ← hb]
    apply List.map_congr_left
    intro q hq
    dsimp only [Function.comp]
    split <;> rfl

lemma fresh_of_same_keys {t s s' : IoUTracker} (hk : idsOf s' = idsOf s)
    (hn : s'.next_id = s.next_id) (h : IdFresh t s) : IdFresh t s' := by
  obtain ⟨h1, h2, h3, h4⟩ := h
  exact ⟨by rw [hk, hn]; exact h1, by rw [hk]; exact h2, by rw [hn]; exact h3,
    by rw [hk]; exact h4⟩

lemma prune_fresh {t s : IoUTracker} (h : IdFresh t s) : IdFresh t s.prune := by
  obtain ⟨h1, h2, h3, h4⟩ := h
  have hsub : List.Sublist (idsOf s.prune) (idsOf s) := by
    unfold idsOf IoUTracker.prune
    exact (List.filter_sublist _).map _
  exact ⟨fun k hk => h1 k (hsub.subset hk), h2.sublist hsub, h3,
    fun k hk => h4 k (hsub.subset hk)⟩

lemma updateCore_fresh {t ta : IoUTracker} {dets : List Det}
    (hbound : ∀ k ∈ idsOf t, k < t.next_id) (hnodup : (idsOf t).Nodup)
    (h : t.updateCore dets = some ta) : IdFresh t ta := by
  have hbase := IdFresh.base hbound hnodup
  unfold IoUTracker.updateCore at h
  by_cases h1 : t.tracks.isEmpty
  · rw [if_pos h1] at h
    injection h with h
    subst h
    exact foldl_createTrack_fresh dets hbase
  · rw [if_neg h1] at h
    by_cases h2 : dets.isEmpty
    · rw [if_pos h2] at h
      injection h with h
      subst h
      refine fresh_of_same_keys ?_ ?_ hbase
      · simp [idsOf]
      · rfl
    · rw [if_neg h2] at h
      dsimp only at h
      cases hg : greedyLoop t.iou_threshold (t.tracks.length * dets.length + 1)
          (iouMatrix (t.tracks.map (fun p => p.2.bbox))
            (dets.map (fun d => d.bbox))) [] [] [] with
      | none => rw [hg] at h; exact absurd h (by simp)
      | some res =>
        obtain ⟨ms, usedT, usedD⟩ := res
        rw [hg] at h
        dsimp only at h
        injection h with h
        subst h
        have hf1 : IdFresh t (applyMatches (t.tracks.map (fun p => p.1)) dets ms t) :=
          fresh_of_same_keys (keys_applyMatches _ _ _ _)
            (applyMatches_fields _ _ _ _).2.2 hbase
        have hf2 := spawnNew_fresh usedD dets hf1
        exact fresh_of_same_keys (keys_bumpLost _ _ _)
          (bumpLost_fields _ _ _).2.2 hf2

/-- C4: track ids are assigned from a monotonically increasing counter
starting at 1 and are never reused, even after deletion. `IoUTracker.init`
starts the counter at 1 with an empty table; given the inductive invariant
(live ids below the counter, pairwise distinct), a successful update
preserves the invariant, never decreases the counter, gives every surviving
track either an id it already had or a fresh id at least the old counter
value (hence never an id previously freed by deletion), and the output
reports exactly the table's ids. -/
theorem track_ids_fresh (thr : ℚ) (ml : ℕ) (t : IoUTracker) (dets : List Det)
    (t' : IoUTracker) (out : List TrackState)
    (hbound : ∀ k ∈ idsOf t, k < t.next_id)
    (hnodup : (idsOf t).Nodup)
    (h : t.update dets = some (t', out)) :
    (IoUTracker.init thr ml).next_id = 1 ∧
    (IoUTracker.init thr ml).tracks = [] ∧
    (∀ k ∈ idsOf t', k < t'.next_id) ∧
    (idsOf t').Nodup ∧
    t.next_id ≤ t'.next_id ∧
    (∀ k ∈ idsOf t', k ∈ idsOf t ∨ t.next_id ≤ k) ∧
    out.map (fun s => s.id) = idsOf t' := by
  obtain ⟨ta, hc, ht', hout⟩ := update_eq_some h
  have hfr := prune_fresh (updateCore_fresh hbound hnodup hc)
  subst ht' hout
  obtain ⟨f1, f2, f3, f4⟩ := hfr
  refine ⟨rfl, rfl, f1, f2, f3, f4, ?_⟩
  unfold IoUTracker.output idsOf
  rw [List.map_map]
  rfl

/-- Witness for C4 at a concrete empty-table, empty-detections update. -/
theorem track_ids_fresh_witness :
    (IoUTracker.init 1 0).next_id = 1 ∧
    (IoUTracker.init 1 0).tracks = [] ∧
    (∀ k ∈ idsOf ⟨1, 0, [], 1⟩, k < 1) ∧
    (idsOf ⟨1, 0, [], 1⟩).Nodup ∧
    (1 : ℕ) ≤ 1 ∧
    (∀ k ∈ idsOf ⟨1, 0, [], 1⟩, k ∈ idsOf ⟨1, 0, [], 1⟩ ∨ 1 ≤ k) ∧
    List.map (fun s => s.id) ([] : List TrackState) = idsOf ⟨1, 0, [], 1⟩ :=
  track_ids_fresh 1 0 ⟨1, 0, [], 1⟩ [] ⟨1, 0, [], 1⟩ []
    (by simp [idsOf]) (by simp [idsOf]) (by decide)

/-! ### Greedy tie-breaking with a single track and two detections (C6) -/

lemma firstArgmax_pair_left (a b : (ℕ × ℕ) × ℚ) (hab : ¬ a.2 < b.2) :
    firstArgmax [a, b] = some a := by
  show argmaxStep (argmaxStep none a) b = some a
  rw [show argmaxStep none a = some a from rfl, argmaxStep_some, if_neg hab]

lemma firstArgmax_pair_right (a b : (ℕ × ℕ) × ℚ) (hab : a.2 < b.2) :
    firstArgmax [a, b] = some b := by
  show argmaxStep (argmaxStep none a) b = some b
  rw [show argmaxStep none a = some a from rfl, argmaxStep_some, if_pos hab]

/-- The greedy loop on the tied 1×2 matrix `[[v, v]]`: the first entry is
matched, the second is invalidated on the conflict, then the loop stops. -/
lemma greedyLoop_pair_tie (thr v : ℚ) (hv : thr ≤ v) (hthr : -1 < thr) :
    greedyLoop thr 3 [[v, v]] [] [] [] = some ([(0, 0)], [0], [0]) := by
  have hnv : ¬ v < thr := not_lt.mpr hv
  have hv1 : (-1 : ℚ) < v := lt_of_lt_of_le hthr hv
  have hstep1 : greedyLoop thr 3 [[v, v]] [] [] [] =
      greedyLoop thr 2 [[-1, v]] [0] [0] [(0, 0)] := by
    show greedyLoop thr (2 + 1) [[v, v]] [] [] [] = _
    rw [greedyLoop]
    have hscrut : firstArgmax (matEntries [[v, v]]) = some ((0, 0), v) :=
      firstArgmax_pair_left ((0, 0), v) ((0, 1), v) (lt_irrefl v)
    rw [hscrut]
    dsimp only
    rw [if_neg hnv, if_neg (by simp)]
    rfl
  have hstep2 : greedyLoop thr 2 [[-1, v]] [0] [0] [(0, 0)] =
      greedyLoop thr 1 [[-1, -1]] [0] [0] [(0, 0)] := by
    show greedyLoop thr (1 + 1) [[-1, v]] [0] [0] [(0, 0)] = _
    rw [greedyLoop]
    have hscrut : firstArgmax (matEntries [[-1, v]]) = some ((0, 1), v) :=
      firstArgmax_pair_right ((0, 0), -1) ((0, 1), v) hv1
    rw [hscrut]
    dsimp only
    rw [if_neg hnv, if_pos (Or.inl (by simp))]
    rfl
  have hstep3 : greedyLoop thr 1 [[-1, -1]] [0] [0] [(0, 0)] =
      some ([(0, 0)], [0], [0]) := by
    show greedyLoop thr (0 + 1) [[-1, -1]] [0] [0] [(0, 0)] = _
    rw [greedyLoop]
    have hscrut : firstArgmax (matEntries [[-1, -1]]) = some ((0, 0), -1) :=
      firstArgmax_pair_left ((0, 0), -1) ((0, 1), -1) (lt_irrefl _)
    rw [hscrut]
    dsimp only
    rw [if_pos hthr]
  rw [hstep1, hstep2, hstep3]

/-- C6: two detections tied at the same overlap `v ≥ iou_threshold` with the
single existing track: exactly one (the first in detection order, by the
greedy argmax's first-occurrence rule) is matched — the track takes its
`bbox/score/class_name` and `lost` is reset to 0 — while the other spawns a
new track under the fresh id `next_id`; the outcome is a deterministic
function of the input ordering. In the source the tie value is `1.0`; the
theorem covers every tied value at or above the threshold. -/
theorem greedy_tie_one_match (thr v : ℚ) (ml i nid : ℕ) (tr : Track)
    (d1 d2 : Det)
    (h1 : compute_iou tr.bbox d1.bbox = v)
    (h2 : compute_iou tr.bbox d2.bbox = v)
    (hv : thr ≤ v) (hthr : -1 < thr) :
    IoUTracker.update ⟨thr, ml, [(i, tr)], nid⟩ [d1, d2] =
      some (⟨thr, ml,
        [(i, ⟨d1.bbox, d1.score, d1.class_name, 0⟩),
         (nid, ⟨d2.bbox, d2.score, d2.class_name, 0⟩)], nid + 1⟩,
        [⟨i, d1.bbox, d1.score, d1.class_name, 0⟩,
         ⟨nid, d2.bbox, d2.score, d2.class_name, 0⟩]) := by
  have hcore : IoUTracker.updateCore ⟨thr, ml, [(i, tr)], nid⟩ [d1, d2] =
      some ⟨thr, ml,
        [(i, ⟨d1.bbox, d1.score, d1.class_name, 0⟩),
         (nid, ⟨d2.bbox, d2.score, d2.class_name, 0⟩)], nid + 1⟩ := by
    unfold IoUTracker.updateCore
    rw [if_neg (by simp), if_neg (by simp)]
    dsimp only [List.map_cons, List.map_nil, List.length_cons, List.length_nil]
    have hmat : iouMatrix [tr.bbox] [d1.bbox, d2.bbox] = [[v, v]] := by
      simp [iouMatrix, h1, h2]
    rw [hmat]
    norm_num
    rw [greedyLoop_pair_tie thr v hv hthr]
    dsimp only
    have happ : applyMatches [i] [d1, d2] [(0, 0)]
        ⟨thr, ml, [(i, tr)], nid⟩ =
        ⟨thr, ml, [(i, ⟨d1.bbox, d1.score, d1.class_name, 0⟩)], nid⟩ := by
      unfold applyMatches applyMatchStep
      simp
    have hspawn : spawnNew [0] [d1, d2]
        ⟨thr, ml, [(i, ⟨d1.bbox, d1.score, d1.class_name, 0⟩)], nid⟩ =
        ⟨thr, ml,
          [(i, ⟨d1.bbox, d1.score, d1.class_name, 0⟩),
           (nid, ⟨d2.bbox, d2.score, d2.class_name, 0⟩)], nid + 1⟩ := by
      unfold spawnNew spawnStep IoUTracker.createTrack
      simp [List.enum]
    have hbump : bumpLost [0] [i]
        ⟨thr, ml,
          [(i, ⟨d1.bbox, d1.score, d1.class_name, 0⟩),
           (nid, ⟨d2.bbox, d2.score, d2.class_name, 0⟩)], nid + 1⟩ =
        ⟨thr, ml,
          [(i, ⟨d1.bbox, d1.score, d1.class_name, 0⟩),
           (nid, ⟨d2.bbox, d2.score, d2.class_name, 0⟩)], nid + 1⟩ := by
      unfold bumpLost bumpStep
      simp [List.enum]
    rw [happ, hspawn, hbump]
  unfold IoUTracker.update
  rw [hcore]
  simp only [Option.map_some']
  unfold IoUTracker.prune IoUTracker.output
  simp [Nat.zero_le]

/-- Witness for C6: identical unit boxes, tie value `1000000/1000001`. -/
theorem greedy_tie_one_match_witness :
    IoUTracker.update ⟨0, 10, [(1, ⟨⟨0, 0, 1, 1⟩, 1, "fire", 0⟩)], 2⟩
      [⟨⟨0, 0, 1, 1⟩, 1, "fire"⟩, ⟨⟨0, 0, 1, 1⟩, 1, "fire"⟩] =
      some (⟨0, 10,
        [(1, ⟨⟨0, 0, 1, 1⟩, 1, "fire", 0⟩),
         (2, ⟨⟨0, 0, 1, 1⟩, 1, "fire", 0⟩)], 3⟩,
        [⟨1, ⟨0, 0, 1, 1⟩, 1, "fire", 0⟩,
         ⟨2, ⟨0, 0, 1, 1⟩, 1, "fire", 0⟩]) :=
  greedy_tie_one_match 0 (1000000 / 1000001) 10 1 2
    ⟨⟨0, 0, 1, 1⟩, 1, "fire", 0⟩
    ⟨⟨0, 0, 1, 1⟩, 1, "fire"⟩ ⟨⟨0, 0, 1, 1⟩, 1, "fire"⟩
    (by norm_num [compute_iou, Box.area, iouEps])
    (by norm_num [compute_iou, Box.area, iouEps])
    (by norm_num) (by norm_num)

/-! ## Event confirmation engine (src/events/fire_event_manager.py) -/

/-- Embedding of `dict.get(k, d)` on an association list. -/
def lookupD {α : Type _} (m : List (ℕ × α)) (k : ℕ) (d : α) : α :=
  match m.find? (fun p => p.1 = k) with
  | some p => p.2
  | none => d

/-- Embedding of `dict[k] = v`: overwrite in place when the key exists, else append. -/
def setK {α : Type _} (m : List (ℕ × α)) (k : ℕ) (v : α) : List (ℕ × α) :=
  if m.any (fun p => p.1 = k) then
    m.map (fun p => if p.1 = k then (k, v) else p)
  else m ++ [(k, v)]

/-- The engine's mutable state (fire_event_manager.py lines 41-43):
`track_frames_count` and `track_last_alert_ts`, both keyed by track id. -/
structure FireState where
  track_frames_count : List (ℕ × ℕ)
  track_last_alert_ts : List (ℕ × ℚ)
deriving DecidableEq, Repr

/-- The metadata dictionary assembled at lines 100-107 and handed to the
notification callback. -/
structure EventMeta where
  frame_idx : ℕ
  num_detections : ℕ
  num_tracks : ℕ
  num_confirmed : ℕ
  confirmed_track_ids : List ℕ
  location : String
deriving DecidableEq, Repr

/-- The body of the `for tr in tracks` loop (lines 65-86): increment
`track_frames_count[tid]` when `lost == 0`; then, if the count has reached
`min_frames` and the cooldown has elapsed since `track_last_alert_ts[tid]`
(default 0.0), append the track to the confirmed list and stamp
`track_last_alert_ts[tid] = now_ts`. -/
def processTrack (mf : ℕ) (cd : ℚ) (now : ℚ)
    (acc : FireState × List TrackState) (tr : TrackState) :
    FireState × List TrackState :=
  let fc := if tr.lost = 0 then
      setK acc.1.track_frames_count tr.id
        (lookupD acc.1.track_frames_count tr.id 0 + 1)
    else acc.1.track_frames_count
  let count := lookupD fc tr.id 0
  if mf ≤ count then
    let last := lookupD acc.1.track_last_alert_ts tr.id 0
    if cd ≤ now - last then
      (⟨fc, setK acc.1.track_last_alert_ts tr.id now⟩, acc.2 ++ [tr])
    else (⟨fc, acc.1.track_last_alert_ts⟩, acc.2)
  else (⟨fc, acc.1.track_last_alert_ts⟩, acc.2)

/-- The whole per-frame loop of `FireEventManager.update`, producing the new
state and the `confirmed_tracks` list. -/
def confirmedFold (mf : ℕ) (cd : ℚ) (now : ℚ) (s : FireState)
    (tracks : List TrackState) : FireState × List TrackState :=
  tracks.foldl (processTrack mf cd now) (s, [])

/-- Embedding of `FireEventManager.update` (lines 45-110). `time.time()` is
the explicit input `now`; the frame image only feeds the saved picture, so it
is not part of the state. The result's second component is `some meta`
exactly when the confirmed list is non-empty — the one case in which the
event image is written and the callback is invoked (once, with `meta`). -/
def fireUpdate (mf : ℕ) (cd : ℚ) (now : ℚ) (numDets frame_idx : ℕ)
    (s : FireState) (tracks : List TrackState) :
    FireState × Option EventMeta :=
  let r := confirmedFold mf cd now s tracks
  if r.2.isEmpty then (r.1, none)
  else (r.1, some {
    frame_idx := frame_idx
    num_detections := numDets
    num_tracks := tracks.length
    num_confirmed := r.2.length
    confirmed_track_ids := r.2.map (fun tr => tr.id)
    location := "Khu vực giám sát từ drone (demo)" })

/-- Which downstream effect fails, for the error-propagation model (C8):
`imageWriteFailed` aborts inside `_save_event_image` (lines 112-195),
`callbackFailed` aborts inside `on_event_confirmed` (line 110). -/
inductive AlertFailure where
  | imageWriteFailed
  | callbackFailed
deriving DecidableEq, Repr

/-- Embedding of `FireEventManager.update` with explicit failure flags for the image write
and the callback. The loop's state updates (line 65-86) happen first; the
image write is attempted before the callback (lines 91 then 110); an
exception propagates (`Except.error`) and nothing is rolled back. -/
def fireUpdateEff (mf : ℕ) (cd : ℚ) (now : ℚ) (numDets frame_idx : ℕ)
    (imageOk cbOk : Bool) (s : FireState) (tracks : List TrackState) :
    FireState × Except AlertFailure (Option EventMeta) :=
  let r := confirmedFold mf cd now s tracks
  if r.2.isEmpty then (r.1, Except.ok none)
  else if imageOk = false then (r.1, Except.error AlertFailure.imageWriteFailed)
  else if cbOk = false then (r.1, Except.error AlertFailure.callbackFailed)
  else (r.1, Except.ok (some {
    frame_idx := frame_idx
    num_detections := numDets
    num_tracks := tracks.length
    num_confirmed := r.2.length
    confirmed_track_ids := r.2.map (fun tr => tr.id)
    location := "Khu vực giám sát từ drone (demo)" }))

/-! ### Association-list lemmas for the engine's dictionaries -/

lemma lookupD_cons {α : Type _} (p : ℕ × α) (m : List (ℕ × α)) (k : ℕ) (d : α) :
    lookupD (p :: m) k d = if p.1 = k then p.2 else lookupD m k d := by
  unfold lookupD
  by_cases hp : p.1 = k
  · simp [List.find?_cons, hp]
  · simp [List.find?_cons, hp]

lemma setK_cons {α : Type _} (p : ℕ × α) (m : List (ℕ × α)) (k : ℕ) (v : α) :
    setK (p :: m) k v =
      if p.1 = k then (k, v) :: m.map (fun q => if q.1 = k then (k, v) else q)
      else p :: setK m k v := by
  unfold setK
  by_cases hp : p.1 = k
  · have hany : (p :: m).any (fun q => decide (q.1 = k)) = true := by
      simp [List.any_cons, hp]
    simp [hany, hp]
  · by_cases hm : m.any (fun q => decide (q.1 = k)) = true
    · have hany : (p :: m).any (fun q => decide (q.1 = k)) = true := by
        simp [List.any_cons, hm]
      simp [hany, hm, hp]
    · have hany : ¬ ((p :: m).any (fun q => decide (q.1 = k)) = true) := by
        simp [List.any_cons, hp]
        simpa using hm
      simp [if_neg hany, hm, hp]

lemma lookupD_setK_self {α : Type _} (k : ℕ) (v d : α) :
    ∀ m : List (ℕ × α), lookupD (setK m k v) k d = v := by
  intro m
  induction m with
  | nil => simp [setK, lookupD]
  | cons p m ih =>
    rw [setK_cons]
    by_cases hp : p.1 = k
    · rw [if_pos hp, lookupD_cons]
      simp
    · rw [if_neg hp, lookupD_cons, if_neg hp]
      exact ih

lemma lookupD_mapK {α : Type _} {k k' : ℕ} (v : α) (d : α) (hne : k' ≠ k) :
    ∀ m : List (ℕ × α),
    lookupD (m.map (fun q => if q.1 = k then (k, v) else q)) k' d =
      lookupD m k' d := by
  intro m
  induction m with
  | nil => rfl
  | cons q m ih =>
    rw [List.map_cons, lookupD_cons, lookupD_cons]
    by_cases hq : q.1 = k
    · rw [if_pos hq]
      have h1 : ¬ ((k, v).1 = k') := fun h => hne (h.symm)
      rw [if_neg h1, if_neg (by rw [hq]; exact fun h => hne h.symm)]
      exact ih
    · rw [if_neg hq]
      by_cases hq' : q.1 = k'
      · rw [if_pos hq', if_pos hq']
      · rw [if_neg hq', if_neg hq']
        exact ih

lemma lookupD_setK_other {α : Type _} {k k' : ℕ} (v d : α) (hne : k' ≠ k) :
    ∀ m : List (ℕ × α), lookupD (setK m k v) k' d = lookupD m k' d := by
  intro m
  induction m with
  | nil =>
    show lookupD [(k, v)] k' d = d
    rw [lookupD_cons, if_neg (fun h => hne h.symm)]
    rfl
  | cons p m ih =>
    rw [setK_cons]
    by_cases hp : p.1 = k
    · rw [if_pos hp, lookupD_cons,
        if_neg (show ¬ ((k, v).1 = k') from fun h => hne h.symm),
        lookupD_cons, if_neg (by rw [hp]; exact fun h => hne h.symm)]
      exact lookupD_mapK v d hne m
    · rw [if_neg hp, lookupD_cons, lookupD_cons]
      by_cases hp' : p.1 = k'
      · rw [if_pos hp', if_pos hp']
      · rw [if_neg hp', if_neg hp']
        exact ih

lemma keys_mapK {α : Type _} (k : ℕ) (v : α) (m : List (ℕ × α)) :
    (m.map (fun q => if q.1 = k then (k, v) else q)).map (fun p => p.1) =
      m.map (fun p => p.1) := by
  rw [List.map_map]
  apply List.map_congr_left
  intro q hq
  dsimp only [Function.comp]
  by_cases hq1 : q.1 = k
  · rw [if_pos hq1]
    exact hq1.symm
  · rw [if_neg hq1]

lemma keys_setK_superset {α : Type _} (k : ℕ) (v : α) :
    ∀ (m : List (ℕ × α)) (j : ℕ), j ∈ m.map (fun p => p.1) →
    j ∈ (setK m k v).map (fun p => p.1) := by
  intro m
  induction m with
  | nil => intro j hj; simp at hj
  | cons p m ih =>
    intro j hj
    rw [List.map_cons, List.mem_cons] at hj
    rw [setK_cons]
    by_cases hp : p.1 = k
    · rw [if_pos hp, List.map_cons, List.mem_cons]
      rcases hj with hj | hj
      · left
        rw [hj, hp]
      · right
        rw [keys_mapK]
        exact hj
    · rw [if_neg hp, List.map_cons, List.mem_cons]
      rcases hj with hj | hj
      · left
        exact hj
      · right
        exact ih j hj

/-! ### Structure of one loop iteration -/

/-- The frames counter after one iteration: incremented at `tr.id` exactly
when `lost == 0`, regardless of the confirmation branch taken. -/
lemma processTrack_count (mf : ℕ) (cd now : ℚ)
    (acc : FireState × List TrackState) (tr : TrackState) :
    (processTrack mf cd now acc tr).1.track_frames_count =
      if tr.lost = 0 then
        setK acc.1.track_frames_count tr.id
          (lookupD acc.1.track_frames_count tr.id 0 + 1)
      else acc.1.track_frames_count := by
  unfold processTrack
  dsimp only
  split <;> split <;> first
  | rfl
  | (split <;> rfl)

/-- One iteration either leaves the alert-timestamp map and the confirmed
list alone, or stamps `tr.id` with `now` and appends `tr`. -/
lemma processTrack_branch (mf : ℕ) (cd now : ℚ)
    (acc : FireState × List TrackState) (tr : TrackState) :
    ((processTrack mf cd now acc tr).1.track_last_alert_ts =
        acc.1.track_last_alert_ts ∧
      (processTrack mf cd now acc tr).2 = acc.2) ∨
    ((processTrack mf cd now acc tr).1.track_last_alert_ts =
        setK acc.1.track_last_alert_ts tr.id now ∧
      (processTrack mf cd now acc tr).2 = acc.2 ++ [tr]) := by
  unfold processTrack
  dsimp only
  split <;> split <;> first
  | exact Or.inl ⟨rfl, rfl⟩
  | (split
     · exact Or.inr ⟨rfl, rfl⟩
     · exact Or.inl ⟨rfl, rfl⟩)

/-- A track with a different id leaves both maps unchanged at `tid`. -/
lemma processTrack_untouched (mf : ℕ) (cd now : ℚ) (tid : ℕ)
    (acc : FireState × List TrackState) (tr : TrackState) (htr : tr.id ≠ tid) :
    lookupD (processTrack mf cd now acc tr).1.track_frames_count tid 0 =
      lookupD acc.1.track_frames_count tid 0 ∧
    lookupD (processTrack mf cd now acc tr).1.track_last_alert_ts tid 0 =
      lookupD acc.1.track_last_alert_ts tid 0 := by
  have hne : tid ≠ tr.id := fun h => htr h.symm
  constructor
  · rw [processTrack_count]
    split
    · exact lookupD_setK_other _ _ hne _
    · rfl
  · rcases processTrack_branch mf cd now acc tr with ⟨h1, -⟩ | ⟨h1, -⟩
    · rw [h1]
    · rw [h1]
      exact lookupD_setK_other _ _ hne _

/-! ### Behaviour of the whole loop -/

/-- Tracks whose ids all differ from `tid` leave both maps unchanged at
`tid`. -/
lemma fold_untouched (mf : ℕ) (cd now : ℚ) (tid : ℕ) :
    ∀ (l : List TrackState) (acc : FireState × List TrackState),
    (∀ x ∈ l, x.id ≠ tid) →
    lookupD (l.foldl (processTrack mf cd now) acc).1.track_frames_count tid 0 =
      lookupD acc.1.track_frames_count tid 0 ∧
    lookupD (l.foldl (processTrack mf cd now) acc).1.track_last_alert_ts tid 0 =
      lookupD acc.1.track_last_alert_ts tid 0 := by
  intro l
  induction l with
  | nil => exact fun acc _ => ⟨rfl, rfl⟩
  | cons x l ih =>
    intro acc h
    rw [List.foldl_cons]
    have hx := processTrack_untouched mf cd now tid acc x
      (h x (List.mem_cons_self _ _))
    have hrest := ih (processTrack mf cd now acc x)
      (fun y hy => h y (List.mem_cons_of_mem _ hy))
    exact ⟨hrest.1.trans hx.1, hrest.2.trans hx.2⟩

/-- The confirmed list only ever grows. -/
lemma fold_confirmed_superset (mf : ℕ) (cd now : ℚ) :
    ∀ (l : List TrackState) (acc : FireState × List TrackState)
      (x : TrackState), x ∈ acc.2 →
    x ∈ (l.foldl (processTrack mf cd now) acc).2 := by
  intro l
  induction l with
  | nil => exact fun acc x hx => hx
  | cons tr l ih =>
    intro acc x hx
    rw [List.foldl_cons]
    refine ih (processTrack mf cd now acc tr) x ?_
    rcases processTrack_branch mf cd now acc tr with ⟨-, h2⟩ | ⟨-, h2⟩
    · rw [h2]
      exact hx
    · rw [h2]
      exact List.mem_append_left _ hx

/-- The confirmed list's length never shrinks. -/
lemma fold_confirmed_length (mf : ℕ) (cd now : ℚ) :
    ∀ (l : List TrackState) (acc : FireState × List TrackState),
    acc.2.length ≤ (l.foldl (processTrack mf cd now) acc).2.length := by
  intro l
  induction l with
  | nil => exact fun acc => le_rfl
  | cons tr l ih =>
    intro acc
    rw [List.foldl_cons]
    refine le_trans ?_ (ih (processTrack mf cd now acc tr))
    rcases processTrack_branch mf cd now acc tr with ⟨-, h2⟩ | ⟨-, h2⟩
    · rw [h2]
    · rw [h2]
      simp

/-- If the loop confirmed nothing beyond its starting list, the timestamp
map is unchanged. -/
lemma fold_ts_of_no_confirm (mf : ℕ) (cd now : ℚ) :
    ∀ (l : List TrackState) (acc : FireState × List TrackState),
    (l.foldl (processTrack mf cd now) acc).2.length = acc.2.length →
    (l.foldl (processTrack mf cd now) acc).1.track_last_alert_ts =
      acc.1.track_last_alert_ts := by
  intro l
  induction l with
  | nil => exact fun acc _ => rfl
  | cons tr l ih =>
    intro acc h
    rw [List.foldl_cons] at h ⊢
    have hlen := fold_confirmed_length mf cd now l (processTrack mf cd now acc tr)
    rcases processTrack_branch mf cd now acc tr with ⟨h1, h2⟩ | ⟨h1, h2⟩
    · have h' : (l.foldl (processTrack mf cd now)
          (processTrack mf cd now acc tr)).2.length =
          (processTrack mf cd now acc tr).2.length := by
        rw [h2]
        exact h
      rw [ih _ h', h1]
    · rw [h2] at hlen
      simp at hlen
      omega

/-- The frames counter at `tid` after the loop: incremented by exactly 1 when
some track with id `tid` and `lost == 0` is in the list, else unchanged
(given pairwise-distinct ids). -/
lemma fold_count (mf : ℕ) (cd now : ℚ) (tid : ℕ) :
    ∀ (l : List TrackState) (acc : FireState × List TrackState),
    (l.map (fun x => x.id)).Nodup →
    lookupD (l.foldl (processTrack mf cd now) acc).1.track_frames_count tid 0 =
      lookupD acc.1.track_frames_count tid 0 +
        (if ∃ tr ∈ l, tr.id = tid ∧ tr.lost = 0 then 1 else 0) := by
  intro l
  induction l with
  | nil =>
    intro acc _
    simp
  | cons tr l ih =>
    intro acc hnd
    rw [List.map_cons, List.nodup_cons] at hnd
    obtain ⟨hni, hnd⟩ := hnd
    rw [List.foldl_cons]
    by_cases hid : tr.id = tid
    · have hrest : ∀ x ∈ l, x.id ≠ tid := by
        intro x hx hxtid
        exact hni (hid ▸ hxtid ▸ List.mem_map_of_mem (fun y => y.id) hx)
      have hun := fold_untouched mf cd now tid l
        (processTrack mf cd now acc tr) hrest
      rw [hun.1, processTrack_count]
      by_cases hl : tr.lost = 0
      · rw [if_pos hl, ← hid, lookupD_setK_self]
        have hex : ∃ x ∈ tr :: l, x.id = tr.id ∧ x.lost = 0 :=
          ⟨tr, List.mem_cons_self _ _, rfl, hl⟩
        rw [if_pos hex]
      · rw [if_neg hl]
        have hex : ¬ ∃ x ∈ tr :: l, x.id = tid ∧ x.lost = 0 := by
          rintro ⟨x, hx, hxid, hxl⟩
          rcases List.mem_cons.mp hx with hx | hx
          · subst hx
            exact hl hxl
          · exact hrest x hx hxid
        rw [if_neg hex]
        simp
    · have h1 := (processTrack_untouched mf cd now tid acc tr hid).1
      rw [ih _ hnd, h1]
      congr 1
      by_cases hex : ∃ x ∈ l, x.id = tid ∧ x.lost = 0
      · rw [if_pos hex]
        obtain ⟨x, hx, hxid, hxl⟩ := hex
        rw [if_pos ⟨x, List.mem_cons_of_mem _ hx, hxid, hxl⟩]
      · rw [if_neg hex, if_neg ?_]
        rintro ⟨x, hx, hxid, hxl⟩
        rcases List.mem_cons.mp hx with hx | hx
        · subst hx
          exact hid hxid
        · exact hex ⟨x, hx, hxid, hxl⟩

/-- Keys of the frames-count map only ever grow during the loop. -/
lemma fold_count_keys (mf : ℕ) (cd now : ℚ) :
    ∀ (l : List TrackState) (acc : FireState × List TrackState) (j : ℕ),
    j ∈ acc.1.track_frames_count.map (fun p => p.1) →
    j ∈ (l.foldl (processTrack mf cd now)
      acc).1.track_frames_count.map (fun p => p.1) := by
  intro l
  induction l with
  | nil => exact fun acc j hj => hj
  | cons tr l ih =>
    intro acc j hj
    rw [List.foldl_cons]
    refine ih (processTrack mf cd now acc tr) j ?_
    rw [processTrack_count]
    split
    · exact keys_setK_superset _ _ _ j hj
    · exact hj

/-- The confirmation test of lines 77-86: a track in the list whose
effective count (post-increment when `lost == 0`) reaches `min_frames` and
whose cooldown has elapsed ends up in the confirmed list with its alert
timestamp stamped to `now` (given pairwise-distinct ids). -/
lemma fold_confirm_eligible (mf : ℕ) (cd now : ℚ) :
    ∀ (l : List TrackState) (acc : FireState × List TrackState)
      (tr : TrackState),
    tr ∈ l → (l.map (fun x => x.id)).Nodup →
    mf ≤ (if tr.lost = 0 then lookupD acc.1.track_frames_count tr.id 0 + 1
          else lookupD acc.1.track_frames_count tr.id 0) →
    cd ≤ now - lookupD acc.1.track_last_alert_ts tr.id 0 →
    tr ∈ (l.foldl (processTrack mf cd now) acc).2 ∧
    lookupD (l.foldl (processTrack mf cd now)
      acc).1.track_last_alert_ts tr.id 0 = now := by
  intro l
  induction l with
  | nil => intro acc tr h; exact absurd h (List.not_mem_nil _)
  | cons x l ih =>
    intro acc tr htr hnd hcnt hcd
    rw [List.map_cons, List.nodup_cons] at hnd
    obtain ⟨hni, hnd⟩ := hnd
    rw [List.foldl_cons]
    rcases List.mem_cons.mp htr with heq | hmem
    · subst heq
      have hstep : processTrack mf cd now acc tr =
          (⟨(if tr.lost = 0 then
              setK acc.1.track_frames_count tr.id
                (lookupD acc.1.track_frames_count tr.id 0 + 1)
            else acc.1.track_frames_count),
            setK acc.1.track_last_alert_ts tr.id now⟩, acc.2 ++ [tr]) := by
        unfold processTrack
        dsimp only
        have hcount : lookupD (if tr.lost = 0 then
            setK acc.1.track_frames_count tr.id
              (lookupD acc.1.track_frames_count tr.id 0 + 1)
          else acc.1.track_frames_count) tr.id 0 =
            (if tr.lost = 0 then lookupD acc.1.track_frames_count tr.id 0 + 1
             else lookupD acc.1.track_frames_count tr.id 0) := by
          by_cases hl : tr.lost = 0
          · rw [if_pos hl, if_pos hl, lookupD_setK_self]
          · rw [if_neg hl, if_neg hl]
        rw [hcount, if_pos hcnt, if_pos hcd]
      rw [hstep]
      have hrest : ∀ y ∈ l, y.id ≠ tr.id := by
        intro y hy hyid
        exact hni (hyid ▸ List.mem_map_of_mem (fun z => z.id) hy)
      have hun := fold_untouched mf cd now tr.id l
        (⟨(if tr.lost = 0 then
            setK acc.1.track_frames_count tr.id
              (lookupD acc.1.track_frames_count tr.id 0 + 1)
          else acc.1.track_frames_count),
          setK acc.1.track_last_alert_ts tr.id now⟩, acc.2 ++ [tr]) hrest
      refine ⟨?_, ?_⟩
      · exact fold_confirmed_superset mf cd now l _ tr
          (List.mem_append_right _ (List.mem_singleton_self _))
      · rw [hun.2]
        exact lookupD_setK_self _ _ _ _
    · have hxid : x.id ≠ tr.id := fun h =>
        hni (h ▸ List.mem_map_of_mem (fun y => y.id) hmem)
      have hun := processTrack_untouched mf cd now tr.id acc x hxid
      refine ih (processTrack mf cd now acc x) tr hmem hnd ?_ ?_
      · rw [hun.1]
        exact hcnt
      · rw [hun.2]
        exact hcd

/-! ## Claim theorems -/

/-- C5: for well-formed boxes `compute_iou` lands in `[0, 1]`; it returns
exactly `0.0` whenever the computed intersection width or height is
non-positive; and on a box with itself it equals `area / (area + ε)` —
strictly below 1 by exactly `ε / (area + ε)` (the float-tolerance deficit
caused by the epsilon) with a positive denominator, so no division by
zero. -/
theorem compute_iou_contract :
    (∀ a b : Box, a.WellFormed → b.WellFormed →
      0 ≤ compute_iou a b ∧ compute_iou a b ≤ 1) ∧
    (∀ a b : Box, min a.x2 b.x2 - max a.x1 b.x1 ≤ 0 ∨
        min a.y2 b.y2 - max a.y1 b.y1 ≤ 0 → compute_iou a b = 0) ∧
    (∀ a : Box, a.WellFormed →
      compute_iou a a = a.area / (a.area + iouEps) ∧ 0 < a.area + iouEps ∧
      compute_iou a a < 1 ∧
      1 - compute_iou a a = iouEps / (a.area + iouEps)) :=
  ⟨compute_iou_mem_unit, compute_iou_of_disjoint, compute_iou_self⟩

/-- Witness for C5 on unit boxes and a disjoint pair. -/
theorem compute_iou_contract_witness :
    (0 ≤ compute_iou ⟨0, 0, 1, 1⟩ ⟨0, 0, 2, 2⟩ ∧
      compute_iou ⟨0, 0, 1, 1⟩ ⟨0, 0, 2, 2⟩ ≤ 1) ∧
    compute_iou ⟨0, 0, 1, 1⟩ ⟨5, 5, 6, 6⟩ = 0 ∧
    (compute_iou ⟨0, 0, 1, 1⟩ ⟨0, 0, 1, 1⟩ =
        Box.area ⟨0, 0, 1, 1⟩ / (Box.area ⟨0, 0, 1, 1⟩ + iouEps) ∧
      0 < Box.area ⟨0, 0, 1, 1⟩ + iouEps ∧
      compute_iou ⟨0, 0, 1, 1⟩ ⟨0, 0, 1, 1⟩ < 1 ∧
      1 - compute_iou ⟨0, 0, 1, 1⟩ ⟨0, 0, 1, 1⟩ =
        iouEps / (Box.area ⟨0, 0, 1, 1⟩ + iouEps)) :=
  ⟨compute_iou_contract.1 ⟨0, 0, 1, 1⟩ ⟨0, 0, 2, 2⟩
      (by constructor <;> norm_num) (by constructor <;> norm_num),
    compute_iou_contract.2.1 ⟨0, 0, 1, 1⟩ ⟨5, 5, 6, 6⟩
      (Or.inl (by norm_num [min_def, max_def])),
    compute_iou_contract.2.2 ⟨0, 0, 1, 1⟩ (by constructor <;> norm_num)⟩

/-- The state component of `fireUpdate` is the loop's final state, whichever
branch is taken. -/
lemma fireUpdate_state (mf : ℕ) (cd now : ℚ) (numDets frame_idx : ℕ)
    (s : FireState) (tracks : List TrackState) :
    (fireUpdate mf cd now numDets frame_idx s tracks).1 =
      (confirmedFold mf cd now s tracks).1 := by
  unfold fireUpdate
  dsimp only
  split <;> rfl

/-- C1: a track whose effective `frames_seen` (after this call's increment
when `lost == 0`) has reached `min_frames` and whose cooldown has elapsed
since its `last_alert_ts` (default time 0) is confirmed in that call: it
lands in the confirmed list, its `last_alert_ts` becomes the current time,
and the callback is invoked exactly once, with `confirmed_track_ids` the ids
of the confirmed list. In the concrete scenario `min_frames = 3`,
`cooldown_seconds = 60`, a track id 7 with `lost == 0` at times 100, 101,
102, 103: no callback on updates 1-2, one callback on update 3 with
`confirmed_track_ids = [7]`, and none on update 4 (elapsed 1 s < 60 s). -/
theorem fire_confirm_spec :
    (∀ (mf : ℕ) (cd now : ℚ) (numDets frame_idx : ℕ) (s : FireState)
      (tracks : List TrackState) (tr : TrackState),
      tr ∈ tracks → (tracks.map (fun x => x.id)).Nodup →
      mf ≤ (if tr.lost = 0 then lookupD s.track_frames_count tr.id 0 + 1
            else lookupD s.track_frames_count tr.id 0) →
      cd ≤ now - lookupD s.track_last_alert_ts tr.id 0 →
      tr ∈ (confirmedFold mf cd now s tracks).2 ∧
      lookupD (fireUpdate mf cd now numDets frame_idx s
        tracks).1.track_last_alert_ts tr.id 0 = now ∧
      (fireUpdate mf cd now numDets frame_idx s tracks).2 = some {
        frame_idx := frame_idx
        num_detections := numDets
        num_tracks := tracks.length
        num_confirmed := (confirmedFold mf cd now s tracks).2.length
        confirmed_track_ids :=
          (confirmedFold mf cd now s tracks).2.map (fun x => x.id)
        location := "Khu vực giám sát từ drone (demo)" }) ∧
    fireUpdate 3 60 100 1 1 ⟨[], []⟩ [⟨7, ⟨0, 0, 1, 1⟩, 1, "fire", 0⟩] =
      (⟨[(7, 1)], []⟩, none) ∧
    fireUpdate 3 60 101 1 2 ⟨[(7, 1)], []⟩ [⟨7, ⟨0, 0, 1, 1⟩, 1, "fire", 0⟩] =
      (⟨[(7, 2)], []⟩, none) ∧
    fireUpdate 3 60 102 1 3 ⟨[(7, 2)], []⟩ [⟨7, ⟨0, 0, 1, 1⟩, 1, "fire", 0⟩] =
      (⟨[(7, 3)], [(7, 102)]⟩,
        some ⟨3, 1, 1, 1, [7], "Khu vực giám sát từ drone (demo)"⟩) ∧
    fireUpdate 3 60 103 1 4 ⟨[(7, 3)], [(7, 102)]⟩
      [⟨7, ⟨0, 0, 1, 1⟩, 1, "fire", 0⟩] =
      (⟨[(7, 4)], [(7, 102)]⟩, none) := by
  refine ⟨?_, ?_, ?_, ?_, ?_⟩
  · intro mf cd now numDets frame_idx s tracks tr htr hnd hcnt hcd
    have hm := fold_confirm_eligible mf cd now tracks (s, []) tr htr hnd hcnt hcd
    have hne' : (confirmedFold mf cd now s tracks).2 ≠ [] := by
      intro h0
      exact absurd (h0 ▸ hm.1) (List.not_mem_nil tr)
    have hne : ¬ ((confirmedFold mf cd now s tracks).2.isEmpty = true) := by
      simpa [List.isEmpty_iff] using hne'
    refine ⟨hm.1, ?_, ?_⟩
    · rw [fireUpdate_state]
      exact hm.2
    · unfold fireUpdate
      dsimp only
      rw [if_neg hne]
  · norm_num [fireUpdate, confirmedFold, processTrack, lookupD, setK]
  · norm_num [fireUpdate, confirmedFold, processTrack, lookupD, setK]
  · norm_num [fireUpdate, confirmedFold, processTrack, lookupD, setK]
  · norm_num [fireUpdate, confirmedFold, processTrack, lookupD, setK]

/-- Witness for C1's general clause at a concrete eligible track. -/
theorem fire_confirm_spec_witness :
    (⟨3, ⟨0, 0, 1, 1⟩, 1, "fire", 0⟩ : TrackState) ∈
      (confirmedFold 1 0 5 ⟨[], []⟩ [⟨3, ⟨0, 0, 1, 1⟩, 1, "fire", 0⟩]).2 ∧
    lookupD (fireUpdate 1 0 5 1 2 ⟨[], []⟩
      [⟨3, ⟨0, 0, 1, 1⟩, 1, "fire", 0⟩]).1.track_last_alert_ts 3 0 = 5 ∧
    (fireUpdate 1 0 5 1 2 ⟨[], []⟩ [⟨3, ⟨0, 0, 1, 1⟩, 1, "fire", 0⟩]).2 =
      some {
        frame_idx := 2
        num_detections := 1
        num_tracks := ([⟨3, ⟨0, 0, 1, 1⟩, 1, "fire", 0⟩] : List TrackState).length
        num_confirmed :=
          (confirmedFold 1 0 5 ⟨[], []⟩ [⟨3, ⟨0, 0, 1, 1⟩, 1, "fire", 0⟩]).2.length
        confirmed_track_ids := (confirmedFold 1 0 5 ⟨[], []⟩
          [⟨3, ⟨0, 0, 1, 1⟩, 1, "fire", 0⟩]).2.map (fun x => x.id)
        location := "Khu vực giám sát từ drone (demo)" } :=
  fire_confirm_spec.1 1 0 5 1 2 ⟨[], []⟩ [⟨3, ⟨0, 0, 1, 1⟩, 1, "fire", 0⟩]
    ⟨3, ⟨0, 0, 1, 1⟩, 1, "fire", 0⟩ (by simp) (by simp)
    (by norm_num [lookupD]) (by norm_num [lookupD])

/-- C3: across one `FireEventManager.update` call (ids pairwise distinct, as
the tracker produces them), the `frames_seen` counter of any id is
incremented by exactly 1 when that id appears with `lost == 0` and is
unchanged otherwise — never decremented, never reset — and no key is ever
removed from the counter map; hence every id's counter is monotonically
non-decreasing across calls. -/
theorem frames_seen_monotone :
    ∀ (mf : ℕ) (cd now : ℚ) (numDets frame_idx : ℕ) (s : FireState)
      (tracks : List TrackState) (tid : ℕ),
    (tracks.map (fun x => x.id)).Nodup →
    lookupD (fireUpdate mf cd now numDets frame_idx s
        tracks).1.track_frames_count tid 0 =
      lookupD s.track_frames_count tid 0 +
        (if ∃ tr ∈ tracks, tr.id = tid ∧ tr.lost = 0 then 1 else 0) ∧
    lookupD s.track_frames_count tid 0 ≤
      lookupD (fireUpdate mf cd now numDets frame_idx s
        tracks).1.track_frames_count tid 0 ∧
    (∀ j ∈ s.track_frames_count.map (fun p => p.1),
      j ∈ (fireUpdate mf cd now numDets frame_idx s
        tracks).1.track_frames_count.map (fun p => p.1)) := by
  intro mf cd now numDets frame_idx s tracks tid hnd
  rw [fireUpdate_state]
  unfold confirmedFold
  have he := fold_count mf cd now tid tracks (s, []) hnd
  refine ⟨he, ?_, ?_⟩
  · rw [he]
    exact Nat.le_add_right _ _
  · intro j hj
    exact fold_count_keys mf cd now tracks (s, []) j hj

/-- Witness for C3: a single visible track with id 7, fresh engine state. -/
theorem frames_seen_monotone_witness :
    lookupD (fireUpdate 3 60 100 1 1 ⟨[], []⟩
        [⟨7, ⟨0, 0, 1, 1⟩, 1, "fire", 0⟩]).1.track_frames_count 7 0 =
      lookupD ([] : List (ℕ × ℕ)) 7 0 +
        (if ∃ tr ∈ ([⟨7, ⟨0, 0, 1, 1⟩, 1, "fire", 0⟩] : List TrackState),
            tr.id = 7 ∧ tr.lost = 0 then 1 else 0) ∧
    lookupD ([] : List (ℕ × ℕ)) 7 0 ≤
      lookupD (fireUpdate 3 60 100 1 1 ⟨[], []⟩
        [⟨7, ⟨0, 0, 1, 1⟩, 1, "fire", 0⟩]).1.track_frames_count 7 0 ∧
    (∀ j ∈ ([] : List (ℕ × ℕ)).map (fun p => p.1),
      j ∈ (fireUpdate 3 60 100 1 1 ⟨[], []⟩
        [⟨7, ⟨0, 0, 1, 1⟩, 1, "fire", 0⟩]).1.track_frames_count.map
          (fun p => p.1)) :=
  frames_seen_monotone 3 60 100 1 1 ⟨[], []⟩
    [⟨7, ⟨0, 0, 1, 1⟩, 1, "fire", 0⟩] 7 (by simp)

/-- C7: when the loop confirms no track, the callback is not invoked, no
event image is produced (the effectful model returns `ok none` without
attempting either effect, for any failure flags), and the
`track_last_alert_ts` map is unchanged. -/
theorem no_confirm_no_effect :
    ∀ (mf : ℕ) (cd now : ℚ) (numDets frame_idx : ℕ) (s : FireState)
      (tracks : List TrackState),
    (confirmedFold mf cd now s tracks).2 = [] →
    (fireUpdate mf cd now numDets frame_idx s tracks).2 = none ∧
    (fireUpdate mf cd now numDets frame_idx s tracks).1.track_last_alert_ts =
      s.track_last_alert_ts ∧
    (∀ imageOk cbOk : Bool,
      (fireUpdateEff mf cd now numDets frame_idx imageOk cbOk s tracks).2 =
        Except.ok none) := by
  intro mf cd now numDets frame_idx s tracks h0
  have hemp : (confirmedFold mf cd now s tracks).2.isEmpty = true := by
    rw [h0]
    rfl
  refine ⟨?_, ?_, ?_⟩
  · unfold fireUpdate
    dsimp only
    rw [if_pos hemp]
  · rw [fireUpdate_state]
    unfold confirmedFold at h0 ⊢
    exact fold_ts_of_no_confirm mf cd now tracks (s, []) (by rw [h0])
  · intro io co
    unfold fireUpdateEff
    dsimp only
    rw [if_pos hemp]

/-- Witness for C7: one track still below `min_frames`. -/
theorem no_confirm_no_effect_witness :
    (fireUpdate 5 60 100 1 1 ⟨[], []⟩
      [⟨7, ⟨0, 0, 1, 1⟩, 1, "fire", 0⟩]).2 = none ∧
    (fireUpdate 5 60 100 1 1 ⟨[], []⟩
      [⟨7, ⟨0, 0, 1, 1⟩, 1, "fire", 0⟩]).1.track_last_alert_ts =
      FireState.track_last_alert_ts ⟨[], []⟩ ∧
    (∀ imageOk cbOk : Bool,
      (fireUpdateEff 5 60 100 1 1 imageOk cbOk ⟨[], []⟩
        [⟨7, ⟨0, 0, 1, 1⟩, 1, "fire", 0⟩]).2 = Except.ok none) :=
  no_confirm_no_effect 5 60 100 1 1 ⟨[], []⟩
    [⟨7, ⟨0, 0, 1, 1⟩, 1, "fire", 0⟩]
    (by norm_num [confirmedFold, processTrack, lookupD, setK])

/-- The state component of the effectful model is the loop's final state in
every branch. -/
lemma fireUpdateEff_state (mf : ℕ) (cd now : ℚ) (numDets frame_idx : ℕ)
    (imageOk cbOk : Bool) (s : FireState) (tracks : List TrackState) :
    (fireUpdateEff mf cd now numDets frame_idx imageOk cbOk s tracks).1 =
      (confirmedFold mf cd now s tracks).1 := by
  unfold fireUpdateEff
  dsimp only
  split
  · rfl
  · split
    · rfl
    · split
      · rfl
      · rfl

/-- C8: the persistence updates (`frames_seen` increments, `last_alert_ts`
refreshes) complete before the image write and the callback: the engine
state after `update` is the loop's final state whatever the downstream
outcome (no rollback), a failing image write propagates as
`imageWriteFailed` before the callback is attempted, and a failing callback
propagates as `callbackFailed` after a successful image write. -/
theorem alert_state_before_effects :
    ∀ (mf : ℕ) (cd now : ℚ) (numDets frame_idx : ℕ) (imageOk cbOk : Bool)
      (s : FireState) (tracks : List TrackState),
    (fireUpdateEff mf cd now numDets frame_idx imageOk cbOk s tracks).1 =
      (fireUpdate mf cd now numDets frame_idx s tracks).1 ∧
    (fireUpdateEff mf cd now numDets frame_idx imageOk cbOk s tracks).1 =
      (confirmedFold mf cd now s tracks).1 ∧
    (fireUpdateEff mf cd now numDets frame_idx true true s tracks).2 =
      Except.ok (fireUpdate mf cd now numDets frame_idx s tracks).2 ∧
    ((confirmedFold mf cd now s tracks).2 ≠ [] → imageOk = false →
      (fireUpdateEff mf cd now numDets frame_idx imageOk cbOk s tracks).2 =
        Except.error AlertFailure.imageWriteFailed) ∧
    ((confirmedFold mf cd now s tracks).2 ≠ [] → imageOk = true →
      cbOk = false →
      (fireUpdateEff mf cd now numDets frame_idx imageOk cbOk s tracks).2 =
        Except.error AlertFailure.callbackFailed) := by
  intro mf cd now numDets frame_idx imageOk cbOk s tracks
  refine ⟨?_, ?_, ?_, ?_, ?_⟩
  · rw [fireUpdateEff_state, fireUpdate_state]
  · rw [fireUpdateEff_state]
  · unfold fireUpdateEff fireUpdate
    dsimp only
    by_cases hemp : (confirmedFold mf cd now s tracks).2.isEmpty = true
    · rw [if_pos hemp, if_pos hemp]
    · rw [if_neg hemp, if_neg hemp, if_neg (by simp), if_neg (by simp)]
  · intro hne hio
    have hemp : ¬ ((confirmedFold mf cd now s tracks).2.isEmpty = true) := by
      simpa [List.isEmpty_iff] using hne
    unfold fireUpdateEff
    dsimp only
    rw [if_neg hemp, if_pos hio]
  · intro hne hio hcb
    have hemp : ¬ ((confirmedFold mf cd now s tracks).2.isEmpty = true) := by
      simpa [List.isEmpty_iff] using hne
    unfold fireUpdateEff
    dsimp only
    rw [if_neg hemp, if_neg (by simp [hio]), if_pos hcb]

/-- Witness for C8: a confirmed track with a failing image write. -/
theorem alert_state_before_effects_witness :
    (fireUpdateEff 1 0 5 1 1 false true ⟨[], []⟩
      [⟨3, ⟨0, 0, 1, 1⟩, 1, "fire", 0⟩]).2 =
      Except.error AlertFailure.imageWriteFailed :=
  (alert_state_before_effects 1 0 5 1 1 false true ⟨[], []⟩
    [⟨3, ⟨0, 0, 1, 1⟩, 1, "fire", 0⟩]).2.2.2.1
    (by norm_num [confirmedFold, processTrack, lookupD, setK]) rfl

/-- C10: confirmation does not require the track to be seen in the
confirming frame — a temporarily lost track (`lost > 0`) whose stored
`frames_seen` already reaches `min_frames` and whose cooldown has elapsed is
still confirmed in the same call, its `last_alert_ts` is refreshed, and the
callback fires with its id among `confirmed_track_ids`. -/
theorem confirm_without_sight :
    ∀ (mf : ℕ) (cd now : ℚ) (numDets frame_idx : ℕ) (s : FireState)
      (tracks : List TrackState) (tr : TrackState),
    tr ∈ tracks → (tracks.map (fun x => x.id)).Nodup →
    tr.lost ≠ 0 →
    mf ≤ lookupD s.track_frames_count tr.id 0 →
    cd ≤ now - lookupD s.track_last_alert_ts tr.id 0 →
    tr ∈ (confirmedFold mf cd now s tracks).2 ∧
    lookupD (fireUpdate mf cd now numDets frame_idx s
      tracks).1.track_last_alert_ts tr.id 0 = now ∧
    ∃ m : EventMeta,
      (fireUpdate mf cd now numDets frame_idx s tracks).2 = some m ∧
      tr.id ∈ m.confirmed_track_ids := by
  intro mf cd now numDets frame_idx s tracks tr htr hnd hlost hcnt hcd
  have hcnt' : mf ≤ (if tr.lost = 0 then
      lookupD s.track_frames_count tr.id 0 + 1
    else lookupD s.track_frames_count tr.id 0) := by
    rw [if_neg hlost]
    exact hcnt
  have hm := fold_confirm_eligible mf cd now tracks (s, []) tr htr hnd hcnt' hcd
  have hne' : (confirmedFold mf cd now s tracks).2 ≠ [] := by
    intro h0
    exact absurd (h0 ▸ hm.1) (List.not_mem_nil tr)
  have hemp : ¬ ((confirmedFold mf cd now s tracks).2.isEmpty = true) := by
    simpa [List.isEmpty_iff] using hne'
  refine ⟨hm.1, ?_, ?_⟩
  · rw [fireUpdate_state]
    exact hm.2
  · have hupd : (fireUpdate mf cd now numDets frame_idx s tracks).2 = some {
        frame_idx := frame_idx
        num_detections := numDets
        num_tracks := tracks.length
        num_confirmed := (confirmedFold mf cd now s tracks).2.length
        confirmed_track_ids :=
          (confirmedFold mf cd now s tracks).2.map (fun x => x.id)
        location := "Khu vực giám sát từ drone (demo)" } := by
      unfold fireUpdate
      dsimp only
      rw [if_neg hemp]
    exact ⟨_, hupd, List.mem_map_of_mem (fun x => x.id) hm.1⟩

/-- Witness for C10: track 3 is lost (`lost = 2`) but its stored count 5
already meets `min_frames = 3` and the cooldown has elapsed. -/
theorem confirm_without_sight_witness :
    (⟨3, ⟨0, 0, 1, 1⟩, 1, "fire", 2⟩ : TrackState) ∈
      (confirmedFold 3 0 5 ⟨[(3, 5)], []⟩
        [⟨3, ⟨0, 0, 1, 1⟩, 1, "fire", 2⟩]).2 ∧
    lookupD (fireUpdate 3 0 5 1 1 ⟨[(3, 5)], []⟩
      [⟨3, ⟨0, 0, 1, 1⟩, 1, "fire", 2⟩]).1.track_last_alert_ts 3 0 = 5 ∧
    (∃ m : EventMeta,
      (fireUpdate 3 0 5 1 1 ⟨[(3, 5)], []⟩
        [⟨3, ⟨0, 0, 1, 1⟩, 1, "fire", 2⟩]).2 = some m ∧
      3 ∈ m.confirmed_track_ids) :=
  confirm_without_sight 3 0 5 1 1 ⟨[(3, 5)], []⟩
    [⟨3, ⟨0, 0, 1, 1⟩, 1, "fire", 2⟩] ⟨3, ⟨0, 0, 1, 1⟩, 1, "fire", 2⟩
    (by simp) (by simp) (by norm_num) (by norm_num [lookupD])
    (by norm_num [lookupD])
